import Mathlib

/-
Shallow embedding of the code-block extract/merge engine of
`pages/api/generate.js` (by-language matching) and the second variant of the
same handler (by-filename matching).  Strings are modelled as `List Char`;
the specific regular expressions of the source are modelled by explicit
recursive scanners that implement exactly the leftmost-first, lazy/greedy
backtracking semantics of the JavaScript patterns involved:

  extraction:          /```(\w+)\n([\s\S]*?)```/g
  by-language replace: new RegExp("```" + lang + "\\n[\\s\\S]*?```", "i")
  by-filename replace: new RegExp("```[\\w-]+\\n[\\s\\S]*?file:\\s*" + esc(F)
                                  + "[\\s\\S]*?```", "i")
  filename recovery:   code.match(/file:\s*(.+)\n/i)

`String.prototype.replace` with a string replacement argument is modelled
including its `$$`/`$&`/`$`-backtick/`$`-quote substitution patterns (the
regexes above have no capture groups, so `$n` stays literal, as in JS).
Character classes (`\w`, `\s`, `.`) are modelled over their ASCII content;
all inputs appearing in the source and spec are ASCII.
-/

namespace INeedMoney

/-- Backtick character (code point 96), the fence delimiter character. -/
def tick : Char := Char.ofNat 96

/-- Single-quote character (code point 39), used by the `$`-quote replacement
pattern of JavaScript `String.replace`. -/
def quoteC : Char := Char.ofNat 39

/-- JS `\w`: ASCII letters, digits and underscore. -/
def isWordChar (c : Char) : Bool := c.isAlphanum || c = '_'

/-- The character class `[\w-]` of the by-filename replacement regex. -/
def isWordDash (c : Char) : Bool := isWordChar c || c = '-'

/-- JS `\s` (ASCII part): space, tab, line feed, carriage return, vertical
tab, form feed. -/
def isWS (c : Char) : Bool :=
  c = ' ' || c = '\t' || c = '\n' || c = '\r' || c = Char.ofNat 11 || c = Char.ofNat 12

/-- JS `.` (no `/s` flag): any character except line terminators. -/
def isDot (c : Char) : Bool := !(c = '\n' : Bool) && !(c = '\r' : Bool)

/-- Character-wise `toLowerCase`, as applied by `m[1].toLowerCase()`. -/
def lcStr (s : List Char) : List Char := s.map Char.toLower

/-- Case-insensitive equality of strings, modelling the `i` regex flag. -/
def eqCI (a b : List Char) : Bool := decide (lcStr a = lcStr b)

/-- The opening/closing fence string of three backticks. -/
def ticks : List Char := [tick, tick, tick]

/-- The `"\n\n"` separator the merge loops put before appended blocks. -/
def nl2 : List Char := ['\n', '\n']

/-- True when the text begins with the three-backtick fence. -/
def startsFence : List Char → Bool
  | a :: b :: c :: _ => a = tick && b = tick && c = tick
  | _ => false

/-- Greedy span of a character class: the maximal run of characters
satisfying `p` and the remainder. -/
def spanP (p : Char → Bool) : List Char → List Char × List Char
  | [] => ([], [])
  | c :: cs =>
    if p c then
      let q := spanP p cs
      (c :: q.1, q.2)
    else ([], c :: cs)

/-- Lazy `[\s\S]*?` followed by the literal closing fence: split the text at
the first occurrence of three backticks, returning the text before it and the
text after it.  `none` when no fence occurs (the regex fails to match). -/
def splitAtFence : List Char → Option (List Char × List Char)
  | [] => none
  | c :: cs =>
    if startsFence (c :: cs) then some ([], cs.drop 2)
    else
      match splitAtFence cs with
      | some (b, r) => some (c :: b, r)
      | none => none

/-- The full raw span of a fenced block with language token `l` and body `c`:
exactly the text `m[0]` consumed by the extraction regex. -/
def rawOf (l c : List Char) : List Char := ticks ++ (l ++ '\n' :: (c ++ ticks))

/-- Attempt of the extraction regex `/```(\w+)\n([\s\S]*?)```/` anchored at
the start of `s`: match the fence, then the greedy nonempty `\w+` run which
must be followed by a line feed (shorter runs cannot be followed by `\n`
either, so the greedy run is the only candidate, as in the JS engine), then
lazily find the closing fence.  Returns `(language, body, rest)`. -/
def matchFenceAt (s : List Char) : Option (List Char × List Char × List Char) :=
  if startsFence s then
    match spanP isWordChar (s.drop 3) with
    | (lang, c :: u) =>
      if lang ≠ [] ∧ c = '\n' then
        match splitAtFence u with
        | some (body, rest) => some (lang, body, rest)
        | none => none
      else none
    | (_, []) => none
  else none

/-- A code block as built by `extractCodeBlocks` of `pages/api/generate.js`:
`{ lang: m[1].toLowerCase(), code: m[2], fullBlock: m[0] }`. -/
structure CodeBlock where
  lang : List Char
  code : List Char
  fullBlock : List Char
deriving DecidableEq, Repr

/-- The block record pushed for a raw match with language token `l` (original
case) and body `c`. -/
def mkBlockRaw (l c : List Char) : CodeBlock :=
  { lang := lcStr l, code := c, fullBlock := rawOf l c }

/-- Fuel-driven global scan of the extraction regex: at each position, try
the anchored match; on success emit the block and continue after it (the JS
`lastIndex`), otherwise advance one character.  Fuel strictly exceeding the
text length is always sufficient. -/
def extractFuel : Nat → List Char → List CodeBlock
  | 0, _ => []
  | fuel + 1, s =>
    match matchFenceAt s with
    | some (l, c, rest) => mkBlockRaw l c :: extractFuel fuel rest
    | none =>
      match s with
      | [] => []
      | _ :: cs => extractFuel fuel cs

/-- The global extraction loop of `extractCodeBlocks`. -/
def extractAux (s : List Char) : List CodeBlock := extractFuel (s.length + 1) s

/-- Model of `extractCodeBlocks` in `pages/api/generate.js`.  The JS guard
`if (!markdown || typeof markdown !== "string") return blocks` is modelled by
an `Option` input: `none` stands for absent or non-string input (the falsy
empty string takes the same guard and yields `[]`, exactly what the scan
yields on empty text). -/
def extractCodeBlocks : Option (List Char) → List CodeBlock
  | none => []
  | some s => extractAux s

/-- The `$`-pattern substitution JavaScript `String.prototype.replace`
applies to a string replacement argument (ECMA-262 GetSubstitution),
restricted to the patterns that are active for a regex without capture
groups: `$$` inserts `$`, `$&` the matched text, `$` + backtick the text
before the match, `$` + quote the text after it; any other `$` sequence
(including `$n`, since there are no groups) stays literal. -/
def getSubstitution (matched pre post : List Char) : List Char → List Char
  | [] => []
  | c :: cs =>
    if c = '$' then
      match cs with
      | [] => [c]
      | d :: ds =>
        if d = '$' then '$' :: getSubstitution matched pre post ds
        else if d = '&' then matched ++ getSubstitution matched pre post ds
        else if d = tick then pre ++ getSubstitution matched pre post ds
        else if d = quoteC then post ++ getSubstitution matched pre post ds
        else c :: getSubstitution matched pre post (d :: ds)
    else c :: getSubstitution matched pre post cs

/-- Result of `base.replace(regex, newB)` for the first match decomposed as
`pre ++ matched ++ rest`. -/
def jsReplaceOnce (pre matched rest newB : List Char) : List Char :=
  pre ++ getSubstitution matched pre rest newB ++ rest

/-- Attempt of the by-language replacement regex
`"```" + lang + "\n[\s\S]*?```"` (flag `i`) anchored at the start of `s`:
the fence, then `lang` as a case-insensitive literal (safe because extracted
languages are `\w+`), then a line feed, then lazily the closing fence.
Returns the matched span and the remainder. -/
def matchLangAt (lang s : List Char) : Option (List Char × List Char) :=
  if startsFence s then
    if eqCI ((s.drop 3).take lang.length) lang then
      match (s.drop 3).drop lang.length with
      | c :: u =>
        if c = '\n' then
          match splitAtFence u with
          | some (body, rest) => some (rawOf ((s.drop 3).take lang.length) body, rest)
          | none => none
        else none
      | [] => none
    else none
  else none

/-- Leftmost-first search of the by-language regex: returns
`(pre, matched, rest)` for the first position where the anchored attempt
succeeds. -/
def findLangMatch (lang : List Char) : List Char → Option (List Char × List Char × List Char)
  | [] => none
  | c :: cs =>
    match matchLangAt lang (c :: cs) with
    | some (m, rest) => some ([], m, rest)
    | none =>
      match findLangMatch lang cs with
      | some (pre, m, rest) => some (c :: pre, m, rest)
      | none => none

/-- Model of `replaceFirstCodeBlockByLang(base, lang, newBlock)` in
`pages/api/generate.js`: `regex.test` plus `base.replace(regex, newBlock)`,
returning `{updated, replaced}`. -/
def replaceFirstCodeBlockByLang (base lang newBlock : List Char) : List Char × Bool :=
  match findLangMatch lang base with
  | some (pre, m, rest) => (jsReplaceOnce pre m rest newBlock, true)
  | none => (base, false)

/-- The fenced representation the merge loops build for a new block:
`"```" + lang + "\n" + code + "\n```"`. -/
def newFullBlock (lang code : List Char) : List Char :=
  ticks ++ (lang ++ '\n' :: (code ++ '\n' :: ticks))

/-- What the by-language merge loop did with one new block: an in-place
replacement for its language, or an append. -/
inductive MAction where
  | replaceA : List Char → MAction
  | appendA : List Char → MAction
deriving DecidableEq, Repr

/-- Effect of `replacedLangs[lang] = true` on a JS object: record the key once,
keeping insertion order (the order `Object.keys` later reports). -/
def insertLang (ls : List (List Char)) (l : List Char) : List (List Char) :=
  if l ∈ ls then ls else ls ++ [l]

/-- State of the by-language merge loop: the evolving `merged` text and the
keys of the `replacedLangs` object. -/
structure LangState where
  merged : List Char
  consumed : List (List Char)
deriving DecidableEq, Repr

/-- One iteration of the by-language merge loop of the handler in
`pages/api/generate.js` (lines 111-129): build the new fenced block; if the
language is not yet in `replacedLangs`, try the in-place replacement and
keep it on success; otherwise append with a blank-line separator.  In every
branch `replacedLangs[lang]` is set.  The returned action records which
branch produced the new text. -/
def mergeLangStep (st : LangState) (b : CodeBlock) : LangState × MAction :=
  if b.lang ∈ st.consumed then
    (⟨st.merged ++ nl2 ++ newFullBlock b.lang b.code, insertLang st.consumed b.lang⟩,
      MAction.appendA b.lang)
  else
    match replaceFirstCodeBlockByLang st.merged b.lang (newFullBlock b.lang b.code) with
    | (updated, true) => (⟨updated, insertLang st.consumed b.lang⟩, MAction.replaceA b.lang)
    | (_, false) =>
      (⟨st.merged ++ nl2 ++ newFullBlock b.lang b.code, insertLang st.consumed b.lang⟩,
        MAction.appendA b.lang)

/-- The by-language merge loop over all extracted AI blocks, also returning
the per-block action trace. -/
def mergeLangAux : LangState → List CodeBlock → LangState × List MAction
  | st, [] => (st, [])
  | st, b :: bs =>
    ((mergeLangAux (mergeLangStep st b).1 bs).1,
      (mergeLangStep st b).2 :: (mergeLangAux (mergeLangStep st b).1 bs).2)

/-- The JSON payload of the 200 response of `pages/api/generate.js`, less
the raw echo: merged output, `aiBlocksCount`, `Object.keys(replacedLangs)`. -/
structure GenResult where
  output : List Char
  aiBlocksCount : Nat
  replacedLangs : List (List Char)
deriving DecidableEq, Repr

/-- The merge pipeline of the handler in `pages/api/generate.js` (lines
102-144): extract the AI blocks, run the by-language merge loop starting
from `previousCode`, and if the AI output had no blocks at all append the
raw output; report the block count and the `replacedLangs` keys. -/
def handlerMergeLang (previousCode fullOutput : List Char) : GenResult :=
  let aiBlocks := extractCodeBlocks (some fullOutput)
  let final := (mergeLangAux ⟨previousCode, []⟩ aiBlocks).1
  { output := if aiBlocks.length = 0 then final.merged ++ nl2 ++ fullOutput else final.merged
    aiBlocksCount := aiBlocks.length
    replacedLangs := final.consumed }

/-- The action trace of one by-language merge call. -/
def mergeLangTrace (previousCode fullOutput : List Char) : List MAction :=
  (mergeLangAux ⟨previousCode, []⟩ (extractCodeBlocks (some fullOutput))).2

/-- Number of in-place replacements for language `L` in a merge trace. -/
def countReplace (L : List Char) (tr : List MAction) : Nat :=
  (tr.filter (fun a => a = MAction.replaceA L)).length

/-- The literal `file:` of the filename regexes (matched case-insensitively). -/
def fileKw : List Char := ['f', 'i', 'l', 'e', ':']

/-- Case-insensitive literal prefix test (the anchored attempt of a literal
inside an `i`-flagged regex): too-short text fails because the truncated
take has a different length. -/
def startsWithCI (pat s : List Char) : Bool := eqCI (s.take pat.length) pat

/-- Part `(.+)\n` of the filename-recovery regex `/file:\s*(.+)\n/i` anchored at
`s`: the greedy nonempty run of non-line-terminator characters must be
followed by a line feed (giving back characters cannot help, because every
shorter run is followed by a `.`-character, never `\n`).  Returns the
capture. -/
def matchDotPlusNl (s : List Char) : Option (List Char) :=
  match spanP isDot s with
  | ([], _) => none
  | (run, c :: _) => if c = '\n' then some run else none
  | (_ :: _, []) => none

/-- Backtracking of the greedy `\s*` of `/file:\s*(.+)\n/i`: try consuming
`k` whitespace characters, longest first. -/
def tryWsCapture (s1 : List Char) : Nat → Option (List Char)
  | 0 => matchDotPlusNl s1
  | k + 1 =>
    match matchDotPlusNl (s1.drop (k + 1)) with
    | some cap => some cap
    | none => tryWsCapture s1 k

/-- Attempt of `/file:\s*(.+)\n/i` anchored at `s`. -/
def fileMatchAt (s : List Char) : Option (List Char) :=
  if startsWithCI fileKw s then
    tryWsCapture (s.drop 5) (spanP isWS (s.drop 5)).1.length
  else none

/-- Leftmost-first search of `/file:\s*(.+)\n/i` over the block body
(`code.match(...)`), returning the capture `m[1]` of the first position
where the whole pattern matches. -/
def fileMarkerSearch : List Char → Option (List Char)
  | [] => none
  | c :: cs =>
    match fileMatchAt (c :: cs) with
    | some cap => some cap
    | none => fileMarkerSearch cs

/-- JS `String.prototype.trim` (ASCII whitespace). -/
def trimJS (s : List Char) : List Char :=
  ((s.dropWhile isWS).reverse.dropWhile isWS).reverse

/-- Model of `fileMatch ? fileMatch[1].trim() : null` in the second variant's
extractor. -/
def fileMarkerOf (code : List Char) : Option (List Char) :=
  (fileMarkerSearch code).map trimJS

/-- A code block of the second variant's `extractCodeBlocks`:
`{ lang, code, filename, fullBlock }`. -/
structure FBlock where
  lang : List Char
  code : List Char
  filename : Option (List Char)
  fullBlock : List Char
deriving DecidableEq, Repr

/-- The filename-aware view of an extracted block: the second variant runs
the same fence loop and additionally recovers the filename from the body. -/
def toFBlock (b : CodeBlock) : FBlock :=
  { lang := b.lang, code := b.code, filename := fileMarkerOf b.code,
    fullBlock := b.fullBlock }

/-- Model of `extractCodeBlocks` in the second (filename-aware) variant: identical
fence scan, plus `code.match(/file:\s*(.+)\n/i)` per block. -/
def extractCodeBlocksF (md : Option (List Char)) : List FBlock :=
  (extractCodeBlocks md).map toFBlock

/-- Literal `F` then lazy `[\s\S]*?` then the closing fence, at whitespace offset
`k` after `file:` (the filename is regex-escaped in the source, hence a
literal; the `i` flag makes it case-insensitive).  Returns the rest of the
text after the closing fence. -/
def fnAttemptAt (F s1 : List Char) (k : Nat) : Option (List Char) :=
  if startsWithCI F (s1.drop k) then
    match splitAtFence ((s1.drop k).drop F.length) with
    | some (_, rest) => some rest
    | none => none
  else none

/-- Backtracking of the greedy `\s*` before `F`: try `k` whitespace
characters, longest first, each with the full continuation. -/
def fnTryWs (F s1 : List Char) : Nat → Option (List Char)
  | 0 => fnAttemptAt F s1 0
  | k + 1 =>
    match fnAttemptAt F s1 (k + 1) with
    | some r => some r
    | none => fnTryWs F s1 k

/-- Attempt of `file:\s*F[\s\S]*?```` anchored at `s`. -/
def fnContAt (F s : List Char) : Option (List Char) :=
  if startsWithCI fileKw s then
    fnTryWs F (s.drop 5) (spanP isWS (s.drop 5)).1.length
  else none

/-- The first lazy `[\s\S]*?` of the by-filename regex: advance one
character at a time (crossing any closing fences on the way, exactly as
`[\s\S]*?` does) until the `file:` continuation matches. -/
def fnScan (F : List Char) : List Char → Option (List Char)
  | [] => none
  | c :: cs =>
    match fnContAt F (c :: cs) with
    | some r => some r
    | none => fnScan F cs

/-- Attempt of the whole by-filename regex
`"```[\w-]+\n[\s\S]*?file:\s*" + esc(F) + "[\s\S]*?```"` (flag `i`)
anchored at the start of `s`: fence, greedy nonempty `[\w-]+` run followed
by a line feed, then the scanned continuation.  Returns the rest of the
text after the match. -/
def matchFnAt (F s : List Char) : Option (List Char) :=
  if startsFence s then
    match spanP isWordDash (s.drop 3) with
    | (run, c :: u) => if run ≠ [] ∧ c = '\n' then fnScan F u else none
    | (_, []) => none
  else none

/-- Leftmost-first search of the by-filename regex, returning
`(pre, matched, rest)`. -/
def findFnMatch (F : List Char) : List Char → Option (List Char × List Char × List Char)
  | [] => none
  | c :: cs =>
    match matchFnAt F (c :: cs) with
    | some rest => some ([], (c :: cs).take ((c :: cs).length - rest.length), rest)
    | none =>
      match findFnMatch F cs with
      | some (pre, m, rest) => some (c :: pre, m, rest)
      | none => none

/-- Model of `replaceBlockByFilename(base, filename, newBlock)` in the second
variant: the falsy guard (`null` is modelled at the call site, the empty
string here), then `regex.test` plus `base.replace(regex, newBlock)`. -/
def replaceBlockByFilename (base F newBlock : List Char) : List Char × Bool :=
  if F = [] then (base, false)
  else
    match findFnMatch F base with
    | some (pre, m, rest) => (jsReplaceOnce pre m rest newBlock, true)
    | none => (base, false)

/-- JS truthiness of `blk.filename`: `null` and the empty string are falsy. -/
def truthyF : Option (List Char) → Bool
  | none => false
  | some s => !s.isEmpty

/-- One iteration of the by-filename merge loop of the second variant's
handler (lines 83-94): if the block has a truthy filename try the
replacement, and on failure (or no filename) append with a blank-line
separator. -/
def mergeFnStep (merged : List Char) (b : FBlock) : List Char :=
  if truthyF b.filename then
    match replaceBlockByFilename merged (b.filename.getD []) (newFullBlock b.lang b.code) with
    | (updated, true) => updated
    | (updated, false) => updated ++ nl2 ++ newFullBlock b.lang b.code
  else merged ++ nl2 ++ newFullBlock b.lang b.code

/-- The by-filename merge loop over all extracted AI blocks. -/
def mergeFnAux (prev : List Char) (bs : List FBlock) : List Char :=
  bs.foldl mergeFnStep prev

/-- The merge pipeline of the second variant's handler (lines 80-101):
extract, fold the by-filename merge, append the raw output when no block
was extracted; report the merged text and `aiBlocksCount`. -/
def handlerMergeFn (previousCode output : List Char) : List Char × Nat :=
  let aiBlocks := extractCodeBlocksF (some output)
  let merged := mergeFnAux previousCode aiBlocks
  (if aiBlocks.length = 0 then merged ++ nl2 ++ output else merged, aiBlocks.length)

/-- Boolean substring containment, used to state frame properties. -/
def startsWithList : List Char → List Char → Bool
  | [], _ => true
  | _ :: _, [] => false
  | p :: ps, c :: cs => p = c && startsWithList ps cs

/-- True when `pat` occurs as a contiguous segment of the text. -/
def containsSeg (pat : List Char) : List Char → Bool
  | [] => startsWithList pat []
  | c :: cs => startsWithList pat (c :: cs) || containsSeg pat cs

/-- Text with no backtick at all, hence with no fence: the filler and body
texts of a well-formed document. -/
def tickFree (s : List Char) : Prop := ∀ c ∈ s, c ≠ tick

/-- A valid language token: nonempty, all `\w` characters. -/
def allWord (l : List Char) : Prop := l ≠ [] ∧ ∀ c ∈ l, isWordChar c = true

/-- One constituent of a well-formed document: a fenced block given by its
language token and body, followed by a stretch of non-block filler text. -/
def goodPart (p : List Char × List Char × List Char) : Prop :=
  allWord p.1 ∧ tickFree p.2.1 ∧ tickFree p.2.2

/-- Concatenation of block/filler parts into document text. -/
def joinParts : List (List Char × List Char × List Char) → List Char
  | [] => []
  | (l, b, t) :: rest => rawOf l b ++ (t ++ joinParts rest)

/-- A well-formed document: leading filler, then `N` fenced blocks each
followed by filler. -/
def docOf (t0 : List Char) (ps : List (List Char × List Char × List Char)) : List Char :=
  t0 ++ joinParts ps

/-- Characters of a string literal, for concrete instances. -/
def str (s : String) : List Char := s.data

-- ### Supporting lemmas

theorem startsFence_shape {s : List Char} (h : startsFence s = true) :
    s = tick :: tick :: tick :: s.drop 3 := by
  match s, h with
  | a :: b :: c :: t, h =>
    simp only [startsFence, Bool.and_eq_true, decide_eq_true_eq] at h
    obtain ⟨⟨h1, h2⟩, h3⟩ := h
    subst h1; subst h2; subst h3
    simp

theorem splitAtFence_decomp : ∀ {u b r : List Char},
    splitAtFence u = some (b, r) → u = b ++ ticks ++ r := by
  intro u
  induction u with
  | nil => intro b r h; simp [splitAtFence] at h
  | cons c cs ih =>
    intro b r h
    by_cases hf : startsFence (c :: cs)
    · rw [splitAtFence, if_pos hf] at h
      cases h
      have := startsFence_shape hf
      rw [this]
      simp [ticks]
    · rw [splitAtFence, if_neg hf] at h
      match hsplit : splitAtFence cs with
      | some (b', r') =>
        rw [hsplit] at h
        cases h
        have := ih hsplit
        simp only [List.cons_append]
        rw [← this]
      | none => rw [hsplit] at h; cases h

theorem spanP_parts (p : Char → Bool) : ∀ l : List Char,
    (spanP p l).1 ++ (spanP p l).2 = l := by
  intro l
  induction l with
  | nil => simp [spanP]
  | cons c cs ih =>
    by_cases hc : p c
    · simp [spanP, hc, ih]
    · simp [spanP, hc]

theorem matchFenceAt_decomp : ∀ {s l c rest : List Char},
    matchFenceAt s = some (l, c, rest) → s = rawOf l c ++ rest := by
  intro s l c rest h
  by_cases hf : startsFence s
  · rw [matchFenceAt, if_pos hf] at h
    match hq : spanP isWordChar (s.drop 3) with
    | (lang0, []) => rw [hq] at h; cases h
    | (lang0, c0 :: u) =>
      rw [hq] at h
      dsimp only at h
      by_cases hcond : lang0 ≠ [] ∧ c0 = '\n'
      · rw [if_pos hcond] at h
        match hsplit : splitAtFence u with
        | none => rw [hsplit] at h; cases h
        | some (body, rest') =>
          rw [hsplit] at h
          cases h
          have hdec := splitAtFence_decomp hsplit
          have hparts := spanP_parts isWordChar (s.drop 3)
          rw [hq] at hparts
          simp only at hparts
          rw [hcond.2] at hparts
          rw [hdec] at hparts
          have hsd := startsFence_shape hf
          rw [rawOf, ticks]
          conv_lhs => rw [hsd, ← hparts]
          simp [ticks]
      · rw [if_neg hcond] at h; cases h
  · rw [matchFenceAt, if_neg hf] at h; cases h

theorem matchFenceAt_rest_lt {s l c rest : List Char}
    (h : matchFenceAt s = some (l, c, rest)) : rest.length < s.length := by
  have := matchFenceAt_decomp h
  subst this
  simp [rawOf, ticks]
  omega

theorem extractFuel_irrel : ∀ f1 : Nat, ∀ f2 : Nat, ∀ s : List Char,
    s.length < f1 → s.length < f2 → extractFuel f1 s = extractFuel f2 s := by
  intro f1
  induction f1 with
  | zero => intro f2 s h1 h2; omega
  | succ a ih =>
    intro f2 s h1 h2
    match f2, h2 with
    | b + 1, h2 =>
      match hm : matchFenceAt s with
      | some (l, c, rest) =>
        have hlt := matchFenceAt_rest_lt hm
        simp only [extractFuel, hm]
        rw [ih b rest (by omega) (by omega)]
      | none =>
        match s with
        | [] => simp [extractFuel, hm]
        | c :: cs =>
          simp only [extractFuel, hm]
          have h1c : cs.length < a := by simp at h1; omega
          have h2c : cs.length < b := by simp at h2; omega
          exact ih b cs h1c h2c

theorem extractFuel_succ (fuel : Nat) (s : List Char) :
    extractFuel (fuel + 1) s =
      match matchFenceAt s with
      | some (l, c, rest) => mkBlockRaw l c :: extractFuel fuel rest
      | none =>
        match s with
        | [] => []
        | _ :: cs => extractFuel fuel cs := rfl

/-- One-step unfolding of the extraction scan. -/
theorem extractAux_eq (s : List Char) :
    extractAux s =
      match matchFenceAt s with
      | some (l, c, rest) => mkBlockRaw l c :: extractAux rest
      | none =>
        match s with
        | [] => []
        | _ :: cs => extractAux cs := by
  match hm : matchFenceAt s with
  | some (l, c, rest) =>
    have hlt := matchFenceAt_rest_lt hm
    simp only [extractAux]
    rw [extractFuel_succ, hm]
    dsimp only
    rw [extractFuel_irrel s.length (rest.length + 1) rest hlt (by omega)]
  | none =>
    match s with
    | [] => rfl
    | c :: cs =>
      simp only [extractAux]
      rw [extractFuel_succ, hm]
      dsimp only
      exact extractFuel_irrel (c :: cs).length (cs.length + 1) cs (by simp) (by simp)

theorem startsFence_cons_false {c : Char} (hc : c ≠ tick) (cs : List Char) :
    startsFence (c :: cs) = false := by
  match cs with
  | [] => rfl
  | [d] => rfl
  | d :: e :: t => simp [startsFence, hc]

theorem matchFenceAt_cons_none {c : Char} (hc : c ≠ tick) (cs : List Char) :
    matchFenceAt (c :: cs) = none := by
  rw [matchFenceAt, startsFence_cons_false hc]
  simp

theorem extractAux_skip : ∀ t s : List Char, tickFree t →
    extractAux (t ++ s) = extractAux s := by
  intro t
  induction t with
  | nil => intro s _; simp
  | cons c cs ih =>
    intro s h
    rw [List.cons_append, extractAux_eq, matchFenceAt_cons_none (h c (by simp))]
    dsimp only
    exact ih s (fun x hx => h x (by simp [hx]))

theorem splitAtFence_append : ∀ b : List Char, tickFree b → ∀ r : List Char,
    splitAtFence (b ++ ticks ++ r) = some (b, r) := by
  intro b
  induction b with
  | nil =>
    intro _ r
    show splitAtFence ([] ++ ticks ++ r) = some ([], r)
    simp only [List.nil_append, ticks, List.cons_append, List.nil_append]
    simp [splitAtFence, startsFence]
  | cons c b2 ih =>
    intro hb r
    have hc : c ≠ tick := hb c (by simp)
    have hb2 : tickFree b2 := fun x hx => hb x (by simp [hx])
    show splitAtFence ((c :: b2) ++ ticks ++ r) = some (c :: b2, r)
    rw [List.cons_append, List.cons_append, splitAtFence, startsFence_cons_false hc]
    simp only [Bool.false_eq_true, if_false]
    rw [ih hb2 r]

theorem spanP_exact {p : Char → Bool} : ∀ l : List Char, (∀ c ∈ l, p c = true) →
    ∀ (c0 : Char) (r : List Char), p c0 = false → spanP p (l ++ c0 :: r) = (l, c0 :: r) := by
  intro l
  induction l with
  | nil => intro _ c0 r h0; simp [spanP, h0]
  | cons c cs ih =>
    intro hl c0 r h0
    have hc : p c = true := hl c (by simp)
    rw [List.cons_append, spanP]
    rw [ih (fun x hx => hl x (by simp [hx])) c0 r h0]
    simp [hc]

theorem matchFenceAt_ticks (t : List Char) :
    matchFenceAt (tick :: tick :: tick :: t) =
      match spanP isWordChar t with
      | (lang, c :: u) =>
        if lang ≠ [] ∧ c = '\n' then
          match splitAtFence u with
          | some (body, rest) => some (lang, body, rest)
          | none => none
        else none
      | (_, []) => none := by
  rw [matchFenceAt]
  simp [startsFence]

theorem matchFenceAt_block : ∀ l b : List Char, allWord l → tickFree b →
    ∀ s : List Char, matchFenceAt (rawOf l b ++ s) = some (l, b, s) := by
  intro l b hl hb s
  have h1 : rawOf l b ++ s = tick :: tick :: tick :: (l ++ '\n' :: (b ++ ticks ++ s)) := by
    simp [rawOf, ticks]
  rw [h1, matchFenceAt_ticks]
  rw [spanP_exact l hl.2 '\n' (b ++ ticks ++ s) (by decide)]
  dsimp only
  rw [if_pos ⟨hl.1, rfl⟩, splitAtFence_append b hb s]

theorem extractAux_block : ∀ l b : List Char, allWord l → tickFree b →
    ∀ s : List Char, extractAux (rawOf l b ++ s) = mkBlockRaw l b :: extractAux s := by
  intro l b hl hb s
  rw [extractAux_eq, matchFenceAt_block l b hl hb s]

theorem extractAux_nil : extractAux [] = [] := rfl

theorem extractAux_doc : ∀ ps : List (List Char × List Char × List Char),
    ∀ t : List Char, tickFree t → (∀ p ∈ ps, goodPart p) →
    extractAux (t ++ joinParts ps) = ps.map (fun p => mkBlockRaw p.1 p.2.1) := by
  intro ps
  induction ps with
  | nil =>
    intro t ht _
    rw [joinParts, List.append_nil, show extractAux t = extractAux (t ++ []) by simp]
    rw [extractAux_skip t [] ht, extractAux_nil]
    simp
  | cons p ps2 ih =>
    intro t ht hps
    obtain ⟨l, b, tr⟩ := p
    have hgood : goodPart (l, b, tr) := hps _ (by simp)
    rw [joinParts, extractAux_skip t _ ht]
    rw [show rawOf l b ++ (tr ++ joinParts ps2) = rawOf l b ++ (tr ++ joinParts ps2) from rfl]
    rw [extractAux_block l b hgood.1 hgood.2.1 _]
    rw [ih tr hgood.2.2 (fun q hq => hps q (by simp [hq]))]
    simp

/-- C3.  `extractCodeBlocks` is total by construction (it is a Lean
function); absent or non-string input (`none`) yields the empty sequence;
and on a well-formed document of `N` non-overlapping fenced blocks it
yields exactly those `N` blocks in source order, each with the language
token lowercased (`mkBlockRaw` stores `lcStr l`) and the body equal to the
exact inter-fence text. -/
theorem claim_C3 :
    extractCodeBlocks none = [] ∧
    ∀ (t0 : List Char) (ps : List (List Char × List Char × List Char)),
      tickFree t0 → (∀ p ∈ ps, goodPart p) →
      extractCodeBlocks (some (docOf t0 ps)) = ps.map (fun p => mkBlockRaw p.1 p.2.1) := by
  refine ⟨rfl, ?_⟩
  intro t0 ps ht hps
  show extractAux (docOf t0 ps) = _
  rw [docOf]
  exact extractAux_doc ps t0 ht hps

/-- Witness for C3 at a concrete two-block document. -/
theorem claim_C3_witness :
    extractCodeBlocks
        (some (docOf (str "intro ")
          [(str "js", str "A\n", str "\n\n"), (str "HTML", str "B\n", str " out")])) =
      [mkBlockRaw (str "js") (str "A\n"), mkBlockRaw (str "HTML") (str "B\n")] := by
  have h := claim_C3.2 (str "intro ")
    [(str "js", str "A\n", str "\n\n"), (str "HTML", str "B\n", str " out")]
    (by unfold tickFree; decide) (by unfold goodPart allWord tickFree; decide)
  rw [h]
  simp

theorem extractAux_shape : ∀ n : Nat, ∀ s : List Char, s.length ≤ n →
    ∀ b ∈ extractAux s, ∃ l c : List Char, b = mkBlockRaw l c := by
  intro n
  induction n with
  | zero =>
    intro s hs b hb
    match s, hs with
    | [], _ => rw [extractAux_nil] at hb; cases hb
  | succ k ih =>
    intro s hs b hb
    rw [extractAux_eq] at hb
    match hm : matchFenceAt s with
    | some (l, c, rest) =>
      rw [hm] at hb
      rcases List.mem_cons.mp hb with hb1 | hb2
      · exact ⟨l, c, hb1⟩
      · have hlt := matchFenceAt_rest_lt hm
        exact ih rest (by omega) b hb2
    | none =>
      rw [hm] at hb
      match s, hs, hb with
      | [], _, hb => cases hb
      | c :: cs, hs, hb =>
        exact ih cs (by simp at hs; omega) b hb

/-- C4 (amended).  Every extracted block's raw span is exactly
`<fence><original-case language>\n<body><fence>` with no newline inserted
before the closing fence; the merger's re-serialization
`<fence><language>\n<body>\n<fence>` adds one extra newline (and uses the
lowercased tag), so it is never equal to the raw span and substituting it
for the span is never byte-identical. -/
theorem claim_C4 : ∀ s : List Char, ∀ b ∈ extractAux s, ∃ l : List Char,
    lcStr l = b.lang ∧ b.fullBlock = rawOf l b.code ∧
    newFullBlock b.lang b.code ≠ b.fullBlock := by
  intro s b hb
  obtain ⟨l, c, rfl⟩ := extractAux_shape s.length s (le_refl _) b hb
  refine ⟨l, rfl, rfl, ?_⟩
  intro h
  have hlen := congrArg List.length h
  simp [newFullBlock, rawOf, mkBlockRaw, ticks, lcStr] at hlen

/-- Counterexample to C4 as stated: for the document made of a single
`js` block with body `foo\n`, the block's raw span is the whole document,
and substituting the re-serialization for it yields a different document
(one extra newline), so the round-trip is not byte-identical. -/
theorem claim_C4_cex :
    extractAux (str "```js\nfoo\n```") = [mkBlockRaw (str "js") (str "foo\n")] ∧
    (mkBlockRaw (str "js") (str "foo\n")).fullBlock = str "```js\nfoo\n```" ∧
    newFullBlock (str "js") (str "foo\n") ≠ str "```js\nfoo\n```" :=
  ⟨by decide, by decide, by decide⟩

/-- Witness for C4 at the concrete one-block document. -/
theorem claim_C4_witness :
    ∃ l : List Char,
      lcStr l = (mkBlockRaw (str "js") (str "foo\n")).lang ∧
      (mkBlockRaw (str "js") (str "foo\n")).fullBlock =
        rawOf l (mkBlockRaw (str "js") (str "foo\n")).code ∧
      newFullBlock (mkBlockRaw (str "js") (str "foo\n")).lang
          (mkBlockRaw (str "js") (str "foo\n")).code ≠
        (mkBlockRaw (str "js") (str "foo\n")).fullBlock :=
  claim_C4 (str "```js\nfoo\n```") (mkBlockRaw (str "js") (str "foo\n")) (by decide)

theorem getSubstitution_noDollar (m pre post : List Char) : ∀ nb : List Char,
    '$' ∉ nb → getSubstitution m pre post nb = nb := by
  intro nb
  induction nb with
  | nil => intro _; rfl
  | cons c cs ih =>
    intro h
    have hc : ¬(c = '$') := fun hc => h (by simp [hc])
    rw [getSubstitution.eq_def]
    dsimp only
    rw [if_neg hc, ih (fun hx => h (by simp [hx]))]

theorem matchLangAt_decomp : ∀ {lang s m rest : List Char},
    matchLangAt lang s = some (m, rest) →
    s = m ++ rest ∧ ∃ pfx body : List Char, eqCI pfx lang = true ∧ m = rawOf pfx body := by
  intro lang s m rest h
  by_cases hf : startsFence s
  · rw [matchLangAt, if_pos hf] at h
    by_cases he : eqCI ((s.drop 3).take lang.length) lang = true
    · rw [if_pos he] at h
      match hd : (s.drop 3).drop lang.length with
      | [] => rw [hd] at h; cases h
      | c0 :: u =>
        rw [hd] at h
        dsimp only at h
        by_cases hc0 : c0 = '\n'
        · rw [if_pos hc0] at h
          match hs : splitAtFence u with
          | none => rw [hs] at h; cases h
          | some (body, rest2) =>
            rw [hs] at h
            cases h
            constructor
            · have h3 := startsFence_shape hf
              have h4 : s.drop 3 =
                  (s.drop 3).take lang.length ++ (s.drop 3).drop lang.length :=
                (List.take_append_drop _ _).symm
              have h5 := splitAtFence_decomp hs
              rw [hd, hc0, h5] at h4
              rw [rawOf, ticks]
              conv_lhs => rw [h3, h4]
              simp [ticks]
            · exact ⟨_, body, he, rfl⟩
        · rw [if_neg hc0] at h; cases h
    · rw [if_neg he] at h; cases h
  · rw [matchLangAt, if_neg hf] at h; cases h

theorem findLangMatch_decomp : ∀ {lang : List Char}, ∀ base : List Char,
    ∀ {pre m rest : List Char}, findLangMatch lang base = some (pre, m, rest) →
    base = pre ++ m ++ rest ∧
      ∃ pfx body : List Char, eqCI pfx lang = true ∧ m = rawOf pfx body := by
  intro lang base
  induction base with
  | nil => intro pre m rest h; rw [findLangMatch] at h; cases h
  | cons c cs ih =>
    intro pre m rest h
    rw [findLangMatch] at h
    match hm : matchLangAt lang (c :: cs) with
    | some (m0, rest0) =>
      rw [hm] at h
      cases h
      have hd := matchLangAt_decomp hm
      exact ⟨by simpa using hd.1, hd.2⟩
    | none =>
      rw [hm] at h
      dsimp only at h
      match hf : findLangMatch lang cs with
      | some (pre2, m2, rest2) =>
        rw [hf] at h
        cases h
        have hd := ih hf
        exact ⟨by simp [hd.1], hd.2⟩
      | none => rw [hf] at h; cases h

/-- C5 (amended).  When the by-language match succeeds, the previous text
decomposes as `pre ++ matched ++ rest` with the matched span a full fenced
block whose tag equals the language case-insensitively, and the merged text
is `pre ++ <new fenced block> ++ rest` — verbatim, character for character —
provided the new block's serialization contains no `$` character.  (For
bodies containing `$`-replacement patterns, JS `String.replace` expands
them; see the counterexample.) -/
theorem claim_C5 :
    (∀ base lang pre m rest : List Char,
      findLangMatch lang base = some (pre, m, rest) →
      base = pre ++ m ++ rest ∧
        ∃ pfx body : List Char, eqCI pfx lang = true ∧ m = rawOf pfx body) ∧
    (∀ base lang nb pre m rest : List Char, '$' ∉ nb →
      findLangMatch lang base = some (pre, m, rest) →
      replaceFirstCodeBlockByLang base lang nb = (pre ++ nb ++ rest, true)) := by
  constructor
  · intro base lang pre m rest h
    exact findLangMatch_decomp base h
  · intro base lang nb pre m rest hd h
    rw [replaceFirstCodeBlockByLang, h]
    dsimp only [jsReplaceOnce]
    rw [getSubstitution_noDollar m pre rest nb hd]

/-- Counterexample to C5 as stated: a new `js` block whose body is `$&` is
not substituted verbatim — JS `String.replace` expands `$&` to the matched
text, so the replaced span becomes the new fence wrapped around the old
block, not the new block itself. -/
theorem claim_C5_cex :
    replaceFirstCodeBlockByLang (str "```js\nold\n```") (str "js") (str "```js\n$&\n```") =
      (str "```js\n```js\nold\n```\n```", true) ∧
    str "```js\n```js\nold\n```\n```" ≠ str "```js\n$&\n```" :=
  ⟨by decide, by decide⟩

/-- Witness for C5 at a `$`-free replacement. -/
theorem claim_C5_witness :
    replaceFirstCodeBlockByLang (str "```js\nold\n```") (str "js") (str "NEW") =
      ([] ++ str "NEW" ++ [], true) :=
  claim_C5.2 (str "```js\nold\n```") (str "js") (str "NEW") [] (str "```js\nold\n```") []
    (by decide) (by decide)

theorem mem_insertLang {ls : List (List Char)} {x y : List Char} :
    x ∈ insertLang ls y ↔ x ∈ ls ∨ x = y := by
  rw [insertLang]
  by_cases h : y ∈ ls
  · rw [if_pos h]
    constructor
    · exact Or.inl
    · rintro (hx | rfl)
      · exact hx
      · exact h
  · rw [if_neg h]
    simp

theorem insertLang_of_mem {ls : List (List Char)} {y : List Char} (h : y ∈ ls) :
    insertLang ls y = ls := by
  rw [insertLang, if_pos h]

theorem mergeLangStep_consumed (st : LangState) (b : CodeBlock) :
    ((mergeLangStep st b).1).consumed = insertLang st.consumed b.lang := by
  rw [mergeLangStep]
  by_cases hm : b.lang ∈ st.consumed
  · rw [if_pos hm]
  · rw [if_neg hm]
    match replaceFirstCodeBlockByLang st.merged b.lang (newFullBlock b.lang b.code) with
    | (u, true) => rfl
    | (u, false) => rfl

theorem mergeLangStep_of_consumed (st : LangState) (b : CodeBlock)
    (h : b.lang ∈ st.consumed) :
    mergeLangStep st b =
      (⟨st.merged ++ nl2 ++ newFullBlock b.lang b.code, st.consumed⟩,
        MAction.appendA b.lang) := by
  rw [mergeLangStep, if_pos h, insertLang_of_mem h]

theorem mergeLangAux_nil (st : LangState) : mergeLangAux st [] = (st, []) := rfl

theorem mergeLangAux_cons (st : LangState) (b : CodeBlock) (bs : List CodeBlock) :
    mergeLangAux st (b :: bs) =
      ((mergeLangAux (mergeLangStep st b).1 bs).1,
        (mergeLangStep st b).2 :: (mergeLangAux (mergeLangStep st b).1 bs).2) := rfl

theorem mergeLangAux_consumed_iff : ∀ bs : List CodeBlock, ∀ (st : LangState) (x : List Char),
    x ∈ ((mergeLangAux st bs).1).consumed ↔
      x ∈ st.consumed ∨ x ∈ bs.map (fun b => b.lang) := by
  intro bs
  induction bs with
  | nil => intro st x; simp [mergeLangAux_nil]
  | cons b bs2 ih =>
    intro st x
    rw [mergeLangAux_cons]
    dsimp only
    rw [ih, mergeLangStep_consumed, mem_insertLang]
    simp
    tauto

theorem mergeLangAux_consumed_of_mem : ∀ bs : List CodeBlock, ∀ (st : LangState)
    (b : CodeBlock), b ∈ bs → b.lang ∈ ((mergeLangAux st bs).1).consumed := by
  intro bs st b h
  rw [mergeLangAux_consumed_iff]
  exact Or.inr (List.mem_map.mpr ⟨b, h, rfl⟩)

theorem mergeLangAux_trace_len : ∀ bs : List CodeBlock, ∀ st : LangState,
    ((mergeLangAux st bs).2).length = bs.length := by
  intro bs
  induction bs with
  | nil => intro st; rfl
  | cons b bs2 ih =>
    intro st
    rw [mergeLangAux_cons]
    simp [ih]

theorem mergeLangAux_append : ∀ l1 l2 : List CodeBlock, ∀ st : LangState,
    mergeLangAux st (l1 ++ l2) =
      ((mergeLangAux (mergeLangAux st l1).1 l2).1,
        (mergeLangAux st l1).2 ++ (mergeLangAux (mergeLangAux st l1).1 l2).2) := by
  intro l1
  induction l1 with
  | nil => intro l2 st; simp [mergeLangAux_nil]
  | cons b bs ih =>
    intro l2 st
    rw [List.cons_append, mergeLangAux_cons, ih, mergeLangAux_cons]
    simp

theorem countReplace_nil (L : List Char) : countReplace L [] = 0 := rfl

theorem countReplace_cons (L : List Char) (a : MAction) (tr : List MAction) :
    countReplace L (a :: tr) =
      (if a = MAction.replaceA L then 1 else 0) + countReplace L tr := by
  rw [countReplace, countReplace, List.filter_cons]
  by_cases h : a = MAction.replaceA L
  · simp [h]
    omega
  · simp [h]

theorem mergeLangAux_countReplace : ∀ bs : List CodeBlock, ∀ (st : LangState) (L : List Char),
    countReplace L (mergeLangAux st bs).2 ≤ (if L ∈ st.consumed then 0 else 1) := by
  intro bs
  induction bs with
  | nil =>
    intro st L
    rw [mergeLangAux_nil]
    simp [countReplace_nil]
  | cons b bs2 ih =>
    intro st L
    rw [mergeLangAux_cons]
    dsimp only
    rw [countReplace_cons]
    by_cases hm : b.lang ∈ st.consumed
    · rw [mergeLangStep_of_consumed st b hm]
      dsimp only
      have hrest := ih ⟨st.merged ++ nl2 ++ newFullBlock b.lang b.code, st.consumed⟩ L
      dsimp only at hrest
      have hact : ¬(MAction.appendA b.lang = MAction.replaceA L) := by simp
      rw [if_neg hact]
      omega
    · rw [mergeLangStep, if_neg hm]
      match replaceFirstCodeBlockByLang st.merged b.lang (newFullBlock b.lang b.code) with
      | (u, true) =>
        dsimp only
        have hrest := ih ⟨u, insertLang st.consumed b.lang⟩ L
        dsimp only at hrest
        by_cases hL : L = b.lang
        · subst hL
          rw [if_pos rfl, if_neg hm]
          rw [if_pos (mem_insertLang.mpr (Or.inr rfl))] at hrest
          omega
        · have hact : ¬(MAction.replaceA b.lang = MAction.replaceA L) := by
            simp
            intro hx
            exact hL hx.symm
          rw [if_neg hact]
          by_cases hLc : L ∈ st.consumed
          · rw [if_pos hLc]
            rw [if_pos (mem_insertLang.mpr (Or.inl hLc))] at hrest
            omega
          · rw [if_neg hLc]
            by_cases h2 : L ∈ insertLang st.consumed b.lang
            · rw [if_pos h2] at hrest; omega
            · rw [if_neg h2] at hrest; omega
      | (u, false) =>
        dsimp only
        have hrest := ih ⟨st.merged ++ nl2 ++ newFullBlock b.lang b.code,
          insertLang st.consumed b.lang⟩ L
        dsimp only at hrest
        have hact : ¬(MAction.appendA b.lang = MAction.replaceA L) := by simp
        rw [if_neg hact]
        by_cases hLc : L ∈ st.consumed
        · rw [if_pos hLc]
          rw [if_pos (mem_insertLang.mpr (Or.inl hLc))] at hrest
          omega
        · rw [if_neg hLc]
          by_cases h2 : L ∈ insertLang st.consumed b.lang
          · rw [if_pos h2] at hrest; omega
          · rw [if_neg h2] at hrest; omega

/-- C2.  First-match-only, by language: concretely, with a previous text of
two `js` blocks and two new `js` blocks, the first new block replaces the
first existing `js` block and the second is appended, leaving the second
original block intact; in general, once any earlier new block of the same
language has been processed, a later new block of that language produces an
append action, never a replacement. -/
theorem claim_C2 :
    (handlerMergeLang (str "```js\nA\n```\n\n```js\nB\n```")
        (str "```js\nN1\n```\n\n```js\nN2\n```") =
      ⟨str "```js\nN1\n\n```\n\n```js\nB\n```\n\n```js\nN2\n\n```", 2, [str "js"]⟩) ∧
    ∀ (st : LangState) (pre : List CodeBlock) (b : CodeBlock) (post : List CodeBlock),
      (∃ b0 ∈ pre, b0.lang = b.lang) →
      ((mergeLangAux st (pre ++ b :: post)).2)[pre.length]? =
        some (MAction.appendA b.lang) := by
  constructor
  · decide
  · rintro st pre b post ⟨b0, hb0, hlang⟩
    rw [mergeLangAux_append]
    dsimp only
    rw [mergeLangAux_cons]
    dsimp only
    have hlen : ((mergeLangAux st pre).2).length = pre.length := mergeLangAux_trace_len pre st
    rw [List.getElem?_append_right (by omega)]
    rw [hlen, Nat.sub_self]
    have hb : b.lang ∈ ((mergeLangAux st pre).1).consumed := by
      rw [← hlang]
      exact mergeLangAux_consumed_of_mem pre st b0 hb0
    rw [mergeLangStep_of_consumed _ b hb]
    simp

/-- Witness for C2: a same-language block after an earlier one is appended. -/
theorem claim_C2_witness :
    ((mergeLangAux ⟨[], []⟩
        [mkBlockRaw (str "js") (str "x\n"), mkBlockRaw (str "js") (str "y\n")]).2)[1]? =
      some (MAction.appendA (mkBlockRaw (str "js") (str "y\n")).lang) :=
  claim_C2.2 ⟨[], []⟩ [mkBlockRaw (str "js") (str "x\n")]
    (mkBlockRaw (str "js") (str "y\n")) []
    ⟨mkBlockRaw (str "js") (str "x\n"), by decide, by decide⟩

/-- C8.  Whole-output fallback in both variants: when the model output has
no extractable block, the merged text is exactly the previous text with the
raw output appended (after the blank-line separator), nothing in the
previous text is replaced, and the reported block count is 0 with an empty
replaced-language list. -/
theorem claim_C8 : ∀ prev raw : List Char, extractAux raw = [] →
    handlerMergeLang prev raw = ⟨prev ++ nl2 ++ raw, 0, []⟩ ∧
    handlerMergeFn prev raw = (prev ++ nl2 ++ raw, 0) := by
  intro prev raw h
  constructor
  · simp only [handlerMergeLang, extractCodeBlocks, h]
    rfl
  · simp only [handlerMergeFn, extractCodeBlocksF, extractCodeBlocks, h]
    rfl

/-- Witness for C8 at a fence-free model output. -/
theorem claim_C8_witness :
    handlerMergeLang (str "hello") (str "Sure, here is your code: done.") =
      ⟨str "hello" ++ nl2 ++ str "Sure, here is your code: done.", 0, []⟩ ∧
    handlerMergeFn (str "hello") (str "Sure, here is your code: done.") =
      (str "hello" ++ nl2 ++ str "Sure, here is your code: done.", 0) :=
  claim_C8 (str "hello") (str "Sure, here is your code: done.") (by decide)

/-- C9 (amended).  The reported `replacedLangs` list contains exactly the
language identifiers of all processed new blocks — those appended as well
as those replaced — not only the ones actually used as in-place
replacement targets; the only count reported is the total block count. -/
theorem claim_C9 : ∀ prev raw L : List Char,
    L ∈ (handlerMergeLang prev raw).replacedLangs ↔
      L ∈ (extractCodeBlocks (some raw)).map (fun b => b.lang) := by
  intro prev raw L
  show L ∈ ((mergeLangAux ⟨prev, []⟩ (extractCodeBlocks (some raw))).1).consumed ↔ _
  rw [mergeLangAux_consumed_iff]
  simp

/-- Counterexample to C9 as stated: a single new `js` block that is
appended (the previous text has no `js` block) is still reported in
`replacedLangs`, although no in-place replacement happened at all. -/
theorem claim_C9_cex :
    handlerMergeLang (str "") (str "```js\nnew\n```") =
      ⟨str "\n\n```js\nnew\n\n```", 1, [str "js"]⟩ ∧
    mergeLangTrace (str "") (str "```js\nnew\n```") = [MAction.appendA (str "js")] ∧
    countReplace (str "js") (mergeLangTrace (str "") (str "```js\nnew\n```")) = 0 :=
  ⟨by decide, by decide, by decide⟩

/-- C10.  Within one by-language merge call, at most one in-place
replacement happens per language; every processed block marks its language
consumed (appends included); and a block whose language is already consumed
is appended directly, with no replacement attempt touching the merged
text. -/
theorem claim_C10 :
    (∀ (st : LangState) (bs : List CodeBlock) (L : List Char),
      countReplace L (mergeLangAux st bs).2 ≤ (if L ∈ st.consumed then 0 else 1)) ∧
    (∀ (st : LangState) (bs : List CodeBlock) (b : CodeBlock), b ∈ bs →
      b.lang ∈ ((mergeLangAux st bs).1).consumed) ∧
    (∀ (st : LangState) (b : CodeBlock), b.lang ∈ st.consumed →
      mergeLangStep st b =
        (⟨st.merged ++ nl2 ++ newFullBlock b.lang b.code, st.consumed⟩,
          MAction.appendA b.lang)) := by
  refine ⟨?_, ?_, ?_⟩
  · intro st bs L
    exact mergeLangAux_countReplace bs st L
  · intro st bs b h
    exact mergeLangAux_consumed_of_mem bs st b h
  · intro st b h
    exact mergeLangStep_of_consumed st b h

/-- Witness for C10: the replacement count is bounded on a concrete call,
and a consumed language leads to a direct append. -/
theorem claim_C10_witness :
    countReplace (str "js")
        (mergeLangAux ⟨[], [str "js"]⟩ [mkBlockRaw (str "js") (str "x\n")]).2 ≤
      (if (str "js") ∈ [str "js"] then 0 else 1) ∧
    mergeLangStep ⟨[], [str "js"]⟩ (mkBlockRaw (str "js") (str "x\n")) =
      (⟨[] ++ nl2 ++ newFullBlock (str "js") (str "x\n"), [str "js"]⟩,
        MAction.appendA (str "js")) :=
  ⟨claim_C10.1 ⟨[], [str "js"]⟩ [mkBlockRaw (str "js") (str "x\n")] (str "js"),
    claim_C10.2.2 ⟨[], [str "js"]⟩ (mkBlockRaw (str "js") (str "x\n")) (by decide)⟩

/-- C1.  Frame effect of replacement.  By language the cited example holds:
replacing the single `js` block leaves the `html` block's span byte-intact.
By filename the code violates the claim: with the marker in the second
(`html`) block, the replacement regex matches from the first (`js`) block's
opening fence through the `html` block's closing fence, so the merge
destroys the unrelated `js` block — its span is present in the previous
text but absent from the merged output, which consists of the new block
alone. -/
theorem claim_C1 :
    (handlerMergeLang (str "```js\nA\n```\n\n```html\nB\n```") (str "```js\nN\n```") =
      ⟨str "```js\nN\n\n```\n\n```html\nB\n```", 1, [str "js"]⟩) ∧
    containsSeg (str "```html\nB\n```")
      (handlerMergeLang (str "```js\nA\n```\n\n```html\nB\n```")
        (str "```js\nN\n```")).output = true ∧
    (handlerMergeFn (str "```js\nA\n```\n\n```html\n// file: index.html\nB\n```")
        (str "```html\n// file: index.html\nNEW\n```") =
      (str "```html\n// file: index.html\nNEW\n\n```", 1)) ∧
    containsSeg (str "```js\nA\n```")
      (str "```js\nA\n```\n\n```html\n// file: index.html\nB\n```") = true ∧
    containsSeg (str "```js\nA\n```")
      (handlerMergeFn (str "```js\nA\n```\n\n```html\n// file: index.html\nB\n```")
        (str "```html\n// file: index.html\nNEW\n```")).1 = false :=
  ⟨by decide, by decide, by decide, by decide, by decide⟩

theorem truthyF_some {F : List Char} (h : F ≠ []) : truthyF (some F) = true := by
  rw [truthyF]
  cases F with
  | nil => exact absurd rfl h
  | cons c cs => rfl

/-- C6 (amended).  By-filename matching: a new block with no (or empty)
filename is always appended; a new block whose filename `F` produces no
match of the span regex is appended; and when the regex matches, the merge
splices the new fenced block in place of the matched span (verbatim when it
contains no `$`).  The matched span starts at the first fence from which
`file:` + optional whitespace + the characters of `F` are reachable — `F`
is compared case-insensitively as a prefix of the marker text, not for
exact equality after trimming (see the counterexample), and the span may
extend past the marked block's opening fence.  The spec's concrete
examples hold: a marker equal to `src/app.js` is replaced, a filename
`src/unknown.js` with no match is appended. -/
theorem claim_C6 :
    (∀ (merged : List Char) (b : FBlock), truthyF b.filename = false →
      mergeFnStep merged b = merged ++ nl2 ++ newFullBlock b.lang b.code) ∧
    (∀ (merged : List Char) (b : FBlock) (F : List Char),
      b.filename = some F → F ≠ [] → findFnMatch F merged = none →
      mergeFnStep merged b = merged ++ nl2 ++ newFullBlock b.lang b.code) ∧
    (∀ (merged : List Char) (b : FBlock) (F pre m rest : List Char),
      b.filename = some F → F ≠ [] → '$' ∉ newFullBlock b.lang b.code →
      findFnMatch F merged = some (pre, m, rest) →
      mergeFnStep merged b = pre ++ newFullBlock b.lang b.code ++ rest) ∧
    (handlerMergeFn (str "```js\n// file: src/app.js\nOLD\n```")
        (str "```js\n// file: src/app.js\nNEW\n```") =
      (str "```js\n// file: src/app.js\nNEW\n\n```", 1)) ∧
    (handlerMergeFn (str "```js\n// file: src/app.js\nOLD\n```")
        (str "```js\n// file: src/unknown.js\nNEW\n```") =
      (str "```js\n// file: src/app.js\nOLD\n```" ++ nl2 ++
        newFullBlock (str "js") (str "// file: src/unknown.js\nNEW\n"), 1)) := by
  refine ⟨?_, ?_, ?_, by decide, by decide⟩
  · intro merged b h
    rw [mergeFnStep, h]
    simp
  · intro merged b F hfn hF hfind
    rw [mergeFnStep, hfn, if_pos (truthyF_some hF)]
    rw [show (some F).getD [] = F from rfl]
    rw [replaceBlockByFilename, if_neg hF, hfind]
  · intro merged b F pre m rest hfn hF hd hfind
    rw [mergeFnStep, hfn, if_pos (truthyF_some hF)]
    rw [show (some F).getD [] = F from rfl]
    rw [replaceBlockByFilename, if_neg hF, hfind]
    dsimp only [jsReplaceOnce]
    rw [getSubstitution_noDollar m pre rest (newFullBlock b.lang b.code) hd]

/-- Counterexample to C6 as stated: the previous text's only marker is
`a.jsx`, which is not equal to the new block's filename `a.js`, so the
claim requires an append; the code instead replaces the block, because the
regex matches `F` as a prefix of the marker text. -/
theorem claim_C6_cex :
    (handlerMergeFn (str "```js\n// file: a.jsx\nX\n```")
        (str "```js\n// file: a.js\nnew\n```") =
      (str "```js\n// file: a.js\nnew\n\n```", 1)) ∧
    (extractCodeBlocksF (some (str "```js\n// file: a.js\nnew\n```"))).map
        (fun b => b.filename) = [some (str "a.js")] ∧
    fileMarkerOf (str "// file: a.jsx\nX\n") = some (str "a.jsx") ∧
    str "a.jsx" ≠ str "a.js" ∧
    str "```js\n// file: a.js\nnew\n\n```" ≠
      str "```js\n// file: a.jsx\nX\n```" ++ nl2 ++
        newFullBlock (str "js") (str "// file: a.js\nnew\n") :=
  ⟨by decide, by decide, by decide, by decide, by decide⟩

/-- Witness for C6: a filename with no match falls back to append. -/
theorem claim_C6_witness :
    mergeFnStep (str "nothing here")
        (toFBlock (mkBlockRaw (str "js") (str "// file: a.js\nnew\n"))) =
      str "nothing here" ++ nl2 ++
        newFullBlock (toFBlock (mkBlockRaw (str "js") (str "// file: a.js\nnew\n"))).lang
          (toFBlock (mkBlockRaw (str "js") (str "// file: a.js\nnew\n"))).code :=
  claim_C6.2.1 (str "nothing here")
    (toFBlock (mkBlockRaw (str "js") (str "// file: a.js\nnew\n"))) (str "a.js")
    (by decide) (by decide) (by decide)

/-- C7 (amended).  Filename recovery never alters the body (the extracted
block carries the exact inter-fence text, marker line included), and it
searches the whole body, sliding one character at a time — the first-line
marker is recovered, but so is a marker on any later line, contrary to the
claim's first-line-only reading. -/
theorem claim_C7 :
    (∀ (c : Char) (cs : List Char), fileMatchAt (c :: cs) = none →
      fileMarkerSearch (c :: cs) = fileMarkerSearch cs) ∧
    fileMarkerOf (str "// file: a.js\nrest\n") = some (str "a.js") ∧
    fileMarkerOf (str "x = 1\n// file: a.js\nmore\n") = some (str "a.js") ∧
    (∀ s : List Char, ∀ b ∈ extractCodeBlocksF (some s),
      ∃ b0 ∈ extractAux s, b.code = b0.code ∧ b.fullBlock = b0.fullBlock ∧
        b.filename = fileMarkerOf b.code) := by
  refine ⟨?_, by decide, by decide, ?_⟩
  · intro c cs h
    rw [fileMarkerSearch, h]
  · intro s b hb
    simp only [extractCodeBlocksF, extractCodeBlocks, List.mem_map] at hb
    obtain ⟨b0, hb0, rfl⟩ := hb
    exact ⟨b0, hb0, rfl, rfl, rfl⟩

/-- Counterexample to C7 as stated: a marker-shaped line that is not the
first line of the body still produces a filename (the first body line is
`x = 1`, yet the filename `a.js` is recovered from the second line). -/
theorem claim_C7_cex :
    fileMarkerOf (str "x = 1\n// file: a.js\nmore\n") = some (str "a.js") ∧
    (str "x = 1\n// file: a.js\nmore\n").takeWhile (fun c => !(c = '\n' : Bool)) =
      str "x = 1" :=
  ⟨by decide, by decide⟩

/-- Witness for C7: the search slides past a non-matching head, and the
extracted block keeps its body verbatim. -/
theorem claim_C7_witness :
    fileMarkerSearch ('x' :: str "// file: a.js\n") =
      fileMarkerSearch (str "// file: a.js\n") ∧
    ∃ b0 ∈ extractAux (str "```js\n// file: a.js\nX\n```"),
      (toFBlock (mkBlockRaw (str "js") (str "// file: a.js\nX\n"))).code = b0.code ∧
      (toFBlock (mkBlockRaw (str "js") (str "// file: a.js\nX\n"))).fullBlock =
        b0.fullBlock ∧
      (toFBlock (mkBlockRaw (str "js") (str "// file: a.js\nX\n"))).filename =
        fileMarkerOf (toFBlock (mkBlockRaw (str "js") (str "// file: a.js\nX\n"))).code :=
  ⟨claim_C7.1 'x' (str "// file: a.js\n") (by decide),
    claim_C7.2.2.2 (str "```js\n// file: a.js\nX\n```")
      (toFBlock (mkBlockRaw (str "js") (str "// file: a.js\nX\n"))) (by decide)⟩

end INeedMoney
